import Mathlib

/-!
Verification of the PCB system viewer's camera/viewport transform, hierarchical
layout state, and connection resolution logic, formalised as a shallow embedding
of the JavaScript source (`canvas-manager.js` and the viewer class).

Coordinates are modelled as exact rationals (`ℚ`): the JavaScript arithmetic on
floating-point numbers is the rounding of this exact arithmetic, so equalities
proved here hold "within floating-point tolerance" in the original.
-/

namespace PCB

/-! ## Camera / viewport transform (canvas-manager.js) -/

structure Point where
  x : ℚ
  y : ℚ
deriving DecidableEq, Repr

structure Camera where
  x : ℚ
  y : ℚ
  zoom : ℚ
deriving DecidableEq, Repr

/-- Fixed zoom bounds: `this.bounds = { minZoom: 0.1, maxZoom: 5 }`. -/
def minZoom : ℚ := 1/10

/-- Fixed zoom bounds: `this.bounds = { minZoom: 0.1, maxZoom: 5 }`. -/
def maxZoom : ℚ := 5

/-- Conversion `screenToWorld(screenX, screenY)`:
`worldX = (screenX - camera.x) / camera.zoom`, likewise for y. -/
def screenToWorld (cam : Camera) (screenX screenY : ℚ) : Point :=
  ⟨(screenX - cam.x) / cam.zoom, (screenY - cam.y) / cam.zoom⟩

/-- Conversion `worldToScreen(worldX, worldY)`:
`screenX = worldX * camera.zoom + camera.x`, likewise for y. -/
def worldToScreen (cam : Camera) (worldX worldY : ℚ) : Point :=
  ⟨worldX * cam.zoom + cam.x, worldY * cam.zoom + cam.y⟩

/-- Wheel zoom step: `const zoomFactor = 1.1`. -/
def zoomFactor : ℚ := 11/10

/-- The zoom multiplier chosen from the wheel direction:
`const zoomDelta = wheelEvent.deltaY > 0 ? 1 / zoomFactor : zoomFactor`. -/
def zoomDelta (deltaY : ℚ) : ℚ :=
  if deltaY > 0 then 1 / zoomFactor else zoomFactor

/-- Zoom handler `handleZoom(wheelEvent)` of canvas-manager.js, with the mouse
position already translated to container coordinates.  Computes the world point
under the mouse, the tentative zoom `camera.zoom * zoomDelta` and its clamp to
`[minZoom, maxZoom]`; if the clamp changed the value the whole operation is a
no-op, otherwise the zoom is applied and the camera pan is adjusted so the
world point under the mouse stays at the same screen position. -/
def handleZoom (cam : Camera) (mouseX mouseY deltaY : ℚ) : Camera :=
  let worldPos := screenToWorld cam mouseX mouseY
  let newZoom := cam.zoom * zoomDelta deltaY
  let constrainedZoom := max minZoom (min maxZoom newZoom)
  if constrainedZoom ≠ newZoom then cam
  else
    let cam1 : Camera := ⟨cam.x, cam.y, constrainedZoom⟩
    let newScreenPos := worldToScreen cam1 worldPos.x worldPos.y
    ⟨cam1.x + (mouseX - newScreenPos.x), cam1.y + (mouseY - newScreenPos.y), cam1.zoom⟩

/-- Claim C1: for every camera whose zoom lies in `[minZoom, maxZoom]` (hence is
nonzero) and every point `p`, `worldToScreen` and `screenToWorld` are mutual
inverses: both round trips return `p` exactly. -/
theorem screenToWorld_worldToScreen_inverse (cam : Camera)
    (hmin : minZoom ≤ cam.zoom) (hmax : cam.zoom ≤ maxZoom) (p : Point) :
    worldToScreen cam (screenToWorld cam p.x p.y).x (screenToWorld cam p.x p.y).y = p ∧
    screenToWorld cam (worldToScreen cam p.x p.y).x (worldToScreen cam p.x p.y).y = p := by
  have hz : cam.zoom ≠ 0 := by
    rw [minZoom] at hmin
    intro h
    rw [h] at hmin
    norm_num at hmin
  constructor
  · cases p with
    | mk px py =>
      simp only [worldToScreen, screenToWorld, Point.mk.injEq]
      constructor <;> field_simp
  · cases p with
    | mk px py =>
      simp only [worldToScreen, screenToWorld, Point.mk.injEq]
      constructor <;> field_simp <;> ring

/-- Witness for C1 at a concrete camera and point. -/
theorem screenToWorld_worldToScreen_inverse_witness :
    worldToScreen ⟨2, 3, 1⟩ (screenToWorld ⟨2, 3, 1⟩ 5 7).x (screenToWorld ⟨2, 3, 1⟩ 5 7).y
        = (⟨5, 7⟩ : Point) ∧
    screenToWorld ⟨2, 3, 1⟩ (worldToScreen ⟨2, 3, 1⟩ 5 7).x (worldToScreen ⟨2, 3, 1⟩ 5 7).y
        = (⟨5, 7⟩ : Point) :=
  screenToWorld_worldToScreen_inverse ⟨2, 3, 1⟩ (by norm_num [minZoom])
    (by norm_num [maxZoom]) ⟨5, 7⟩

/-- Claim C2: a wheel-zoom request whose tentative new zoom
`camera.zoom * zoomDelta` falls outside `[minZoom, maxZoom]` leaves the camera
completely unchanged: x, y and zoom are all exactly as before, so the operation
never partially applies. -/
theorem handleZoom_out_of_bounds_noop (cam : Camera) (mouseX mouseY deltaY : ℚ)
    (hmin : minZoom ≤ cam.zoom) (hmax : cam.zoom ≤ maxZoom)
    (hout : cam.zoom * zoomDelta deltaY < minZoom ∨ maxZoom < cam.zoom * zoomDelta deltaY) :
    handleZoom cam mouseX mouseY deltaY = cam := by
  have hne : max minZoom (min maxZoom (cam.zoom * zoomDelta deltaY)) ≠
      cam.zoom * zoomDelta deltaY := by
    rcases hout with h | h
    · have hlt : cam.zoom * zoomDelta deltaY < maxZoom := by
        rw [minZoom] at h; rw [maxZoom]; linarith
      rw [min_eq_right hlt.le]
      intro hc
      rw [max_eq_iff] at hc
      rcases hc with ⟨hc, _⟩ | ⟨_, hc⟩
      · exact absurd hc.symm h.ne
      · exact absurd h (not_lt.mpr hc)
    · rw [min_eq_left h.le]
      have : max minZoom maxZoom = maxZoom := by
        rw [max_eq_right]; norm_num [minZoom, maxZoom]
      rw [this]
      exact h.ne
  simp only [handleZoom]
  rw [if_pos hne]

/-- Witness for C2: zooming in at maximum zoom is a no-op. -/
theorem handleZoom_out_of_bounds_noop_witness :
    handleZoom ⟨0, 0, 5⟩ 100 50 (-1) = ⟨0, 0, 5⟩ :=
  handleZoom_out_of_bounds_noop ⟨0, 0, 5⟩ 100 50 (-1) (by norm_num [minZoom])
    (by norm_num [maxZoom]) (by right; norm_num [zoomDelta, zoomFactor, maxZoom])

/-- Claim C3: for an in-bounds wheel zoom at screen point `(mouseX, mouseY)`,
the world point that was under the mouse before the zoom maps back exactly to
`(mouseX, mouseY)` under the updated camera: the pixel under the cursor stays
fixed across the zoom change. -/
theorem handleZoom_cursor_fixed (cam : Camera) (mouseX mouseY deltaY : ℚ)
    (hmin : minZoom ≤ cam.zoom) (hmax : cam.zoom ≤ maxZoom)
    (hin1 : minZoom ≤ cam.zoom * zoomDelta deltaY)
    (hin2 : cam.zoom * zoomDelta deltaY ≤ maxZoom) :
    worldToScreen (handleZoom cam mouseX mouseY deltaY)
        (screenToWorld cam mouseX mouseY).x (screenToWorld cam mouseX mouseY).y
      = ⟨mouseX, mouseY⟩ := by
  have heq : max minZoom (min maxZoom (cam.zoom * zoomDelta deltaY)) =
      cam.zoom * zoomDelta deltaY := by
    rw [min_eq_right hin2, max_eq_right hin1]
  simp only [handleZoom, heq, ne_eq, not_true_eq_false, if_neg, if_false]
  simp only [worldToScreen, screenToWorld, Point.mk.injEq]
  constructor <;> ring

/-- Witness for C3 at a concrete camera, mouse position and wheel direction. -/
theorem handleZoom_cursor_fixed_witness :
    worldToScreen (handleZoom ⟨4, 9, 1⟩ 3 7 (-1))
        (screenToWorld ⟨4, 9, 1⟩ 3 7).x (screenToWorld ⟨4, 9, 1⟩ 3 7).y
      = (⟨3, 7⟩ : Point) :=
  handleZoom_cursor_fixed ⟨4, 9, 1⟩ 3 7 (-1) (by norm_num [minZoom])
    (by norm_num [maxZoom]) (by norm_num [minZoom, zoomDelta, zoomFactor])
    (by norm_num [maxZoom, zoomDelta, zoomFactor])

/-! ## Module tree data model (viewer class)

A `Module` is one node of the hierarchy built by `buildModuleTreeFromDirectories`:
`{ name, path, parentPath, children, level, type, connections }`.  The `type`
string is a pure display heuristic (`getModuleType`) and plays no role in any
claim, so it is omitted from the record.  `connections` is the parsed
`connections.json` payload for the module's directory (`null` when absent); the
payload's `connections` array is the declared connection list. -/

structure Conn where
  target : String
  ctype : String
  interfaceName : String
  signals : List String
  description : String
deriving DecidableEq, Repr

inductive Module where
  | mk (name : String) (path : String) (parentPath : String) (level : Nat)
       (children : List Module) (connections : Option (List Conn))
deriving Repr

def Module.name : Module → String
  | .mk n _ _ _ _ _ => n

def Module.path : Module → String
  | .mk _ p _ _ _ _ => p

def Module.parentPath : Module → String
  | .mk _ _ pp _ _ _ => pp

def Module.level : Module → Nat
  | .mk _ _ _ l _ _ => l

def Module.children : Module → List Module
  | .mk _ _ _ _ cs _ => cs

def Module.connections : Module → Option (List Conn)
  | .mk _ _ _ _ _ co => co

theorem Module.sizeOf_children_lt (m : Module) : sizeOf m.children < sizeOf m := by
  cases m with
  | mk n p pp l cs co => simp [Module.children]; omega

/-- Structural equality of module lists, used to derive decidable equality for
the nested inductive `Module`. JavaScript's `Array.includes` compares object
identity; in a well-formed tree (unique paths) identity and structural equality
coincide, so structural equality is the faithful translation. -/
def Module.beqList : List Module → List Module → Bool
  | [], [] => true
  | a :: as, b :: bs =>
    (match a, b with
     | .mk n1 p1 pp1 l1 cs1 o1, .mk n2 p2 pp2 l2 cs2 o2 =>
       n1 == n2 && p1 == p2 && pp1 == pp2 && l1 == l2 && Module.beqList cs1 cs2 && o1 == o2)
    && Module.beqList as bs
  | _, _ => false
termination_by as bs => sizeOf as + sizeOf bs
decreasing_by
  all_goals simp
  all_goals omega

/-- Recursion principle for lists of modules that follows the shape of the
recursive tree walks in the source: a step may recurse both into the head's
children and into the tail. -/
theorem moduleListInduction (P : List Module → Prop) (hnil : P [])
    (hcons : ∀ c cs, P (Module.children c) → P cs → P (c :: cs)) : ∀ cs, P cs
  | [] => hnil
  | c :: cs => hcons c cs (moduleListInduction P hnil hcons c.children)
      (moduleListInduction P hnil hcons cs)
termination_by cs => sizeOf cs
decreasing_by
  all_goals simp
  all_goals have hlt := Module.sizeOf_children_lt c
  all_goals omega

/-- Recursion principle for a single module: prove `P m` from `P` holding on
all children. -/
theorem moduleInduction (P : Module → Prop)
    (h : ∀ m, (∀ c ∈ Module.children m, P c) → P m) : ∀ m, P m := by
  have hl : ∀ cs : List Module, ∀ c ∈ cs, P c := by
    intro cs
    induction cs using moduleListInduction with
    | hnil => intro c hc; cases hc
    | hcons c cs ih1 ih2 =>
      intro d hd
      rcases List.mem_cons.mp hd with rfl | hd
      · exact h d ih1
      · exact ih2 d hd
  intro m
  exact h m (hl m.children)

theorem Module.beqList_iff : ∀ as bs : List Module, Module.beqList as bs = true ↔ as = bs := by
  intro as
  induction as using moduleListInduction with
  | hnil =>
    intro bs
    cases bs with
    | nil => simp [Module.beqList]
    | cons b bs => simp [Module.beqList]
  | hcons a as ih1 ih2 =>
    intro bs
    cases bs with
    | nil => simp [Module.beqList]
    | cons b bs =>
      cases a with
      | mk n1 p1 pp1 l1 cs1 o1 =>
        cases b with
        | mk n2 p2 pp2 l2 cs2 o2 =>
          have h1 := ih1 cs2
          simp only [Module.children] at h1
          simp only [Module.beqList, Bool.and_eq_true, beq_iff_eq, h1, ih2 bs,
            List.cons.injEq, Module.mk.injEq]
          tauto

instance : DecidableEq Module := fun a b =>
  decidable_of_iff (Module.beqList [a] [b] = true)
    (by rw [Module.beqList_iff]; simp)

/-! ## Tree traversal helpers -/

/-- All nodes of a forest in preorder: each module followed by the nodes of its
children's subtrees. -/
def nodesList : List Module → List Module
  | [] => []
  | c :: cs => (c :: nodesList c.children) ++ nodesList cs
termination_by cs => sizeOf cs
decreasing_by
  all_goals simp
  all_goals have hlt := Module.sizeOf_children_lt c
  all_goals omega

/-- All nodes of a module's subtree in preorder (the module itself first). -/
def Module.nodes (m : Module) : List Module := m :: nodesList m.children

/-- All nodes reachable from the root list, mirroring the `allModules` map of
the viewer (every directory becomes exactly one module). -/
def forestNodes (roots : List Module) : List Module := roots.bind Module.nodes

/-- Well-formedness of the module forest, as guaranteed by
`buildModuleTreeFromDirectories` for a directory tree: paths are unique across
all nodes, roots are at level 0, every child's level is its parent's level plus
one, and every child's `parentPath` points back at its parent's `path`
(bidirectional parent/child integrity). -/
def WF (roots : List Module) : Prop :=
  ((forestNodes roots).map Module.path).Nodup ∧
  (∀ r ∈ roots, r.level = 0) ∧
  (∀ m ∈ forestNodes roots, ∀ c ∈ m.children, c.level = m.level + 1) ∧
  (∀ m ∈ forestNodes roots, ∀ c ∈ m.children, c.parentPath = m.path)

/-! ## Visibility (getVisibleModules / addExpandedChildren) -/

/-- Body of `addExpandedChildren(module, visibleList)` generalised over a list
of modules: for each module in the list, push it and, recursively, its expanded
descendants.  `addExpandedChildren` itself pushes nothing unless the module's
path is in the expansion set. -/
def addExpandedChildrenList (expanded : Finset String) : List Module → List Module
  | [] => []
  | c :: cs =>
    (c :: (if c.path ∈ expanded then addExpandedChildrenList expanded c.children else []))
      ++ addExpandedChildrenList expanded cs
termination_by cs => sizeOf cs
decreasing_by
  all_goals simp
  all_goals have hlt := Module.sizeOf_children_lt c
  all_goals omega

/-- Source `addExpandedChildren(module, visibleList)`: if the module is
expanded, push each child followed by the child's own expanded descendants. -/
def addExpandedChildren (expanded : Finset String) (m : Module) : List Module :=
  if m.path ∈ expanded then addExpandedChildrenList expanded m.children else []

/-- Source `getVisibleModules()`: all root modules, each followed by its
expanded descendants. -/
def getVisibleModules (roots : List Module) (expanded : Finset String) : List Module :=
  roots.bind (fun r => r :: addExpandedChildren expanded r)

/-! ## Expansion toggling (toggleModuleExpansion / collapseModule) -/

/-- Body of the recursive child loop of `collapseModule`: delete each module's
path from the expansion set and recurse into its children. -/
def collapseList : List Module → Finset String → Finset String
  | [], e => e
  | c :: cs, e => collapseList cs (collapseList c.children (e.erase c.path))
termination_by cs => sizeOf cs
decreasing_by
  all_goals simp
  all_goals have hlt := Module.sizeOf_children_lt c
  all_goals omega

/-- Source `collapseModule(module)`: remove the module's path from the
expansion set, then recursively collapse every child. -/
def collapseModule (m : Module) (expanded : Finset String) : Finset String :=
  collapseList m.children (expanded.erase m.path)

/-- Source `toggleModuleExpansion(module)`, restricted to its effect on the
expansion set: a childless module only gets selected (no change); an expanded
module is collapsed recursively; otherwise the module's path is added. -/
def toggleModuleExpansion (m : Module) (expanded : Finset String) : Finset String :=
  if m.children.isEmpty then expanded
  else if m.path ∈ expanded then collapseModule m expanded
  else insert m.path expanded

/-! ## Connection counting (getConnectionCount) -/

/-- Body of the recursive child loop of `getConnectionCount`: each child
contributes its own declared count, or recursively its children's total. -/
def countList : List Module → Nat
  | [] => 0
  | c :: cs =>
    (match c.connections with
     | some l => l.length
     | none => countList c.children) + countList cs
termination_by cs => sizeOf cs
decreasing_by
  all_goals simp
  all_goals have hlt := Module.sizeOf_children_lt c
  all_goals omega

/-- Source `getConnectionCount(module)`: the length of the module's own
declared connection list when it has one, otherwise the recursive sum over its
children. -/
def getConnectionCount (m : Module) : Nat :=
  match m.connections with
  | some l => l.length
  | none => countList m.children

/-! ## Connection resolution (getConnectionsForModule / findTargetModule /
calculateConnectionPairs) -/

/-- The contribution of a module's own declared list in
`getConnectionsForModule`: it is pushed only when the module has a declared
connection payload and none of its children is visible. -/
def ownConns (vis : List Module) (m : Module) : List Conn :=
  match m.connections with
  | some l => if m.children.any (fun c => decide (c ∈ vis)) then [] else l
  | none => []

/-- Body of the child loop of `getConnectionsForModule`: connections of
children that are not visible are gathered recursively. -/
def getConnsList (vis : List Module) : List Module → List Conn
  | [] => []
  | c :: cs =>
    (if c ∈ vis then [] else ownConns vis c ++ getConnsList vis c.children)
      ++ getConnsList vis cs
termination_by cs => sizeOf cs
decreasing_by
  all_goals simp
  all_goals have hlt := Module.sizeOf_children_lt c
  all_goals omega

/-- Source `getConnectionsForModule(module, visibleModules)`: the module's own
declared connections (when it has some and no visible children), followed by
the connections recursively gathered from every child that is not visible. -/
def getConnectionsForModule (vis : List Module) (m : Module) : List Conn :=
  ownConns vis m ++ getConnsList vis m.children

/-- All connections declared anywhere in a module's subtree, in preorder. -/
def subtreeDeclared (m : Module) : List Conn :=
  m.nodes.bind (fun n => n.connections.getD [])

/-- The last path component: `targetPath.split('/').pop()`. -/
def lastComponent (targetPath : String) : String :=
  (targetPath.splitOn "/").getLastD ""

/-- Source `findTargetModule(targetPath, visibleModules)`: relative references
fall back to matching the final path component against visible module names;
absolute references are looked up in `allModules` and accepted when visible,
with the same name-based fallback otherwise. -/
def findTargetModule (allNodes vis : List Module) (targetPath : String) : Option Module :=
  if targetPath.startsWith "../" || targetPath.startsWith "./" then
    vis.find? (fun m => m.name = lastComponent targetPath)
  else
    match allNodes.find? (fun m => m.path = targetPath) with
    | some t => if t ∈ vis then some t else vis.find? (fun m => m.name = lastComponent targetPath)
    | none => vis.find? (fun m => m.name = lastComponent targetPath)

/-- One aggregated entry of the `pairs` map of `calculateConnectionPairs`:
`{ from, to, connections }` (here `fromModule`/`toModule`, since `from` is a
Lean keyword). -/
structure PairVal where
  fromModule : Module
  toModule : Module
  connections : List Conn
deriving DecidableEq, Repr

/-- The aggregation key: `` `${module.path}->${target.path}` ``. -/
def pairKey (src dst : Module) : String := src.path ++ "->" ++ dst.path

/-- One step of the aggregation in `calculateConnectionPairs`: create the entry
for the key on first sight, then push the connection onto it. -/
def addConnToPairs (pairs : List (String × PairVal)) (src dst : Module) (c : Conn) :
    List (String × PairVal) :=
  let key := pairKey src dst
  if pairs.any (fun kv => kv.1 = key) then
    pairs.map (fun kv =>
      if kv.1 = key then (kv.1, ⟨kv.2.fromModule, kv.2.toModule, kv.2.connections ++ [c]⟩)
      else kv)
  else pairs ++ [(key, ⟨src, dst, [c]⟩)]

/-- The inner loop of `calculateConnectionPairs` for one visible module: each
of its resolved connections is added to the aggregation map; unresolved targets
are dropped. -/
def processModuleConns (allNodes vis : List Module) (pairs : List (String × PairVal))
    (m : Module) : List (String × PairVal) :=
  (getConnectionsForModule vis m).foldl (fun ps c =>
    match findTargetModule allNodes vis c.target with
    | some t => addConnToPairs ps m t c
    | none => ps) pairs

/-- Source `calculateConnectionPairs(visibleModules)`: aggregate all resolved
connections of all visible modules into one entry per key, in insertion order
(JavaScript `Map` semantics), and return the entries. -/
def calculateConnectionPairs (allNodes vis : List Module) : List PairVal :=
  (vis.foldl (processModuleConns allNodes vis) []).map Prod.snd

/-- Edge thickness in `renderConnectionArrow`:
`Math.min(8, Math.max(2, connections.length * 2))`. -/
def connectionThickness (n : Nat) : Nat := min 8 (max 2 (n * 2))

/-! ## Stored boxes and dragging (modulePositions / updateModulePosition /
moveAllDescendants / cancelDrag)

The `modulePositions` map is modelled as a partial map from paths to boxes.
`updateModulePosition` reads the dragged element's `offsetWidth`/`offsetHeight`
from the DOM; the rendered size always mirrors the stored box (renderModule and
recalculateParentBounds write both in lockstep), so the embedding reads the
stored width/height, with the source's `250`/`120` fallbacks. -/

structure Box where
  x : ℚ
  y : ℚ
  width : ℚ
  height : ℚ
deriving DecidableEq, Repr

def PosMap : Type := String → Option Box

/-- Map update: `this.modulePositions.set(path, box)`. -/
def setPos (pm : PosMap) (p : String) (b : Box) : PosMap :=
  fun q => if q = p then some b else pm q

/-- Translation of a stored box by a drag delta: position only, size kept. -/
def shiftBox (dx dy : ℚ) (b : Box) : Box := ⟨b.x + dx, b.y + dy, b.width, b.height⟩

/-- The recursive `moveChildren` loop inside `moveAllDescendants`: every child
that is visible and has a stored box is translated by the delta, and the walk
recurses into it when it is itself expanded. -/
def moveList (vis : List Module) (expanded : Finset String) (dx dy : ℚ) :
    List Module → PosMap → PosMap
  | [], pm => pm
  | c :: cs, pm =>
    let pm1 :=
      if c ∈ vis then
        match pm c.path with
        | some b =>
          let pm2 := setPos pm c.path (shiftBox dx dy b)
          if c.path ∈ expanded then moveList vis expanded dx dy c.children pm2 else pm2
        | none => pm
      else pm
    moveList vis expanded dx dy cs pm1
termination_by cs => sizeOf cs
decreasing_by
  all_goals simp
  all_goals have hlt := Module.sizeOf_children_lt c
  all_goals omega

/-- Source `moveAllDescendants(parentModule, deltaX, deltaY)`: recompute the
visible set and run `moveChildren` from the parent. -/
def moveAllDescendants (roots : List Module) (expanded : Finset String) (dx dy : ℚ)
    (m : Module) (pm : PosMap) : PosMap :=
  moveList (getVisibleModules roots expanded) expanded dx dy m.children pm

/-- Source `updateModulePosition(module, worldPos)`: store the new position
(size read back from the rendered element, i.e. the stored box, with the
250/120 fallback), then, when the module is an expanded container and the drag
delta is nonzero, rigidly translate all visible descendants by the delta. -/
def updateModulePosition (roots : List Module) (expanded : Finset String) (m : Module)
    (wx wy : ℚ) (pm : PosMap) : PosMap :=
  let cur := pm m.path
  let dx := match cur with | some c => wx - c.x | none => 0
  let dy := match cur with | some c => wy - c.y | none => 0
  let w := match cur with | some c => c.width | none => 250
  let h := match cur with | some c => c.height | none => 120
  let pm1 := setPos pm m.path ⟨wx, wy, w, h⟩
  if m.path ∈ expanded ∧ (dx ≠ 0 ∨ dy ≠ 0) then moveAllDescendants roots expanded dx dy m pm1
  else pm1

/-- Source `cancelDrag()`, restricted to its effect on the stored positions:
it re-reads the dragged module's *current* stored position from
`modulePositions` and re-applies it via `updateModulePosition` (the drag-state
bookkeeping of `endModuleDrag` touches no stored box). -/
def cancelDrag (roots : List Module) (expanded : Finset String) (m : Module)
    (pm : PosMap) : PosMap :=
  match pm m.path with
  | some originalPos => updateModulePosition roots expanded m originalPos.x originalPos.y pm
  | none => pm

/-- Proof device: the modules actually translated by `moveList` when every
visible module has a stored box — each visible child, plus, recursively, the
subtree of each visible child that is itself expanded. -/
def movedNodes (vis : List Module) (expanded : Finset String) : List Module → List Module
  | [] => []
  | c :: cs =>
    (if c ∈ vis then
      c :: (if c.path ∈ expanded then movedNodes vis expanded c.children else [])
     else [])
      ++ movedNodes vis expanded cs
termination_by cs => sizeOf cs
decreasing_by
  all_goals simp
  all_goals have hlt := Module.sizeOf_children_lt c
  all_goals omega

/-! ## Helper lemmas about the tree walks -/

theorem nodesList_cons (c : Module) (cs : List Module) :
    nodesList (c :: cs) = (c :: nodesList c.children) ++ nodesList cs := by
  rw [nodesList]

theorem collapseList_cons (c : Module) (cs : List Module) (e : Finset String) :
    collapseList (c :: cs) e = collapseList cs (collapseList c.children (e.erase c.path)) := by
  rw [collapseList]

/-- The child count loop agrees with summing `getConnectionCount` over the
children. -/
theorem countList_eq_sum (cs : List Module) :
    countList cs = (cs.map getConnectionCount).sum := by
  induction cs using moduleListInduction with
  | hnil => simp [countList]
  | hcons c cs ih1 ih2 =>
    rw [countList, List.map_cons, List.sum_cons, ih2]
    congr 1

/-- Claim C10: the connection count reported for a module equals the length of
its own declared connection list whenever it has one, ignoring everything its
descendants declare; only a module with no declared list of its own reports
the recursive sum of its children's counts. -/
theorem getConnectionCount_spec :
    (∀ (m : Module) (l : List Conn), m.connections = some l →
      getConnectionCount m = l.length) ∧
    (∀ m : Module, m.connections = none →
      getConnectionCount m = (m.children.map getConnectionCount).sum) := by
  constructor
  · intro m l h
    rw [getConnectionCount, h]
  · intro m h
    rw [getConnectionCount, h, countList_eq_sum]

/-- Witness for C10: a module with one declared connection whose two children
declare five more reports 1, not 6. -/
theorem getConnectionCount_spec_witness :
    getConnectionCount (Module.mk "m" "m" "" 0
      [Module.mk "c1" "m/c1" "m" 1 []
         (some [⟨"t1", "", "", [], ""⟩, ⟨"t2", "", "", [], ""⟩]),
       Module.mk "c2" "m/c2" "m" 1 []
         (some [⟨"t3", "", "", [], ""⟩, ⟨"t4", "", "", [], ""⟩, ⟨"t5", "", "", [], ""⟩])]
      (some [⟨"y", "uart", "UART0", [], "left"⟩])) = 1 :=
  getConnectionCount_spec.1 _ [⟨"y", "uart", "UART0", [], "left"⟩] rfl

/-- Pointwise description of the collapse loop: a path survives `collapseList`
exactly when it was present and is not the path of any node in the collapsed
subtrees. -/
theorem mem_collapseList : ∀ (cs : List Module) (e : Finset String) (p : String),
    p ∈ collapseList cs e ↔ p ∈ e ∧ p ∉ (nodesList cs).map Module.path := by
  intro cs
  induction cs using moduleListInduction with
  | hnil =>
    intro e p
    simp [collapseList, nodesList]
  | hcons c cs ih1 ih2 =>
    intro e p
    rw [collapseList_cons, ih2, ih1, nodesList_cons]
    simp only [Finset.mem_erase, List.map_append, List.map_cons, List.mem_append,
      List.mem_cons]
    constructor
    · rintro ⟨⟨⟨hne, he⟩, hnc⟩, hncs⟩
      exact ⟨he, by tauto⟩
    · rintro ⟨he, hn⟩
      refine ⟨⟨⟨?_, he⟩, ?_⟩, ?_⟩ <;> tauto

/-- Claim C5 (amended): toggling expansion on a module that has at least one
child and whose path is in the expansion set removes exactly the module's path
and the paths of all of its descendants from the set (whether or not they were
expanded); every other path is retained. -/
theorem toggleModuleExpansion_collapse (m : Module) (expanded : Finset String)
    (hchild : m.children ≠ []) (hexp : m.path ∈ expanded) (p : String) :
    p ∈ toggleModuleExpansion m expanded ↔
      p ∈ expanded ∧ p ∉ m.nodes.map Module.path := by
  rw [toggleModuleExpansion, if_neg (by simpa using hchild), if_pos hexp,
    collapseModule, mem_collapseList]
  simp only [Module.nodes, List.map_cons, List.mem_cons, Finset.mem_erase]
  tauto

/-- Witness for C5 (amended): collapsing `a` in the set `{a, a/b, x}` removes
both `a` and the expanded grandchild path `a/b` but keeps `x`. -/
theorem toggleModuleExpansion_collapse_witness :
    "a/b" ∉ toggleModuleExpansion
      (Module.mk "a" "a" "" 0 [Module.mk "b" "a/b" "a" 1 [] none] none)
      ({"a", "a/b", "x"} : Finset String) := by
  have h := toggleModuleExpansion_collapse
    (Module.mk "a" "a" "" 0 [Module.mk "b" "a/b" "a" 1 [] none] none)
    ({"a", "a/b", "x"} : Finset String)
    (by simp [Module.children]) (by simp [Module.path]) "a/b"
  rw [h]
  simp [Module.nodes, nodesList, Module.path, Module.children]

/-- Counterexample to claim C5 as stated: toggling expansion on a *childless*
module whose path is in the expansion set is a complete no-op, so the module's
path is not removed from the set, contradicting the claimed removal. -/
theorem toggleModuleExpansion_childless_counterexample :
    (Module.mk "a" "a" "" 0 [] none).path ∈ ({"a"} : Finset String) ∧
    (Module.mk "a" "a" "" 0 [] none).path ∈
      toggleModuleExpansion (Module.mk "a" "a" "" 0 [] none) ({"a"} : Finset String) := by
  constructor
  · simp [Module.path]
  · simp [toggleModuleExpansion, Module.path, Module.children]

theorem addExpandedChildrenList_cons (expanded : Finset String) (c : Module)
    (cs : List Module) :
    addExpandedChildrenList expanded (c :: cs) =
      (c :: (if c.path ∈ expanded then addExpandedChildrenList expanded c.children else []))
        ++ addExpandedChildrenList expanded cs := by
  rw [addExpandedChildrenList]

/-- Every module pushed by the expanded-children walk is either one of the
modules walked over, or a child of some expanded module that the walk also
pushed. -/
theorem mem_addExpandedChildrenList (expanded : Finset String) :
    ∀ (cs : List Module) (m : Module), m ∈ addExpandedChildrenList expanded cs →
      m ∈ cs ∨ ∃ p, p ∈ addExpandedChildrenList expanded cs ∧ p.path ∈ expanded ∧
        m ∈ p.children := by
  intro cs
  induction cs using moduleListInduction with
  | hnil =>
    intro m hm
    simp [addExpandedChildrenList] at hm
  | hcons c cs ih1 ih2 =>
    intro m hm
    rw [addExpandedChildrenList_cons] at hm
    rcases List.mem_append.mp hm with hm1 | hm2
    · rcases List.mem_cons.mp hm1 with rfl | hm1
      · exact Or.inl (List.mem_cons_self _ _)
      · by_cases hce : c.path ∈ expanded
        · rw [if_pos hce] at hm1
          rcases ih1 m hm1 with hc | ⟨p, hp, hpe, hmc⟩
          · refine Or.inr ⟨c, ?_, hce, hc⟩
            rw [addExpandedChildrenList_cons]
            exact List.mem_append.mpr (Or.inl (List.mem_cons_self _ _))
          · refine Or.inr ⟨p, ?_, hpe, hmc⟩
            rw [addExpandedChildrenList_cons]
            refine List.mem_append.mpr (Or.inl (List.mem_cons_of_mem _ ?_))
            rw [if_pos hce]
            exact hp
        · rw [if_neg hce] at hm1
          cases hm1
    · rcases ih2 m hm2 with hc | ⟨p, hp, hpe, hmc⟩
      · exact Or.inl (List.mem_cons_of_mem _ hc)
      · refine Or.inr ⟨p, ?_, hpe, hmc⟩
        rw [addExpandedChildrenList_cons]
        exact List.mem_append.mpr (Or.inr hp)

/-- Claim C4: in a well-formed forest, the visible-module list never contains a
non-root module (level different from 0) whose parent is absent: every such
module appears together with a visible parent having it among its children. -/
theorem getVisibleModules_parent_present (roots : List Module) (expanded : Finset String)
    (hwf : WF roots) (m : Module) (hm : m ∈ getVisibleModules roots expanded)
    (hlevel : m.level ≠ 0) :
    ∃ p ∈ getVisibleModules roots expanded, m ∈ p.children := by
  rw [getVisibleModules, List.mem_bind] at hm
  obtain ⟨r, hr, hmr⟩ := hm
  rcases List.mem_cons.mp hmr with rfl | hmr
  · exact absurd (hwf.2.1 m hr) hlevel
  · rw [addExpandedChildren] at hmr
    by_cases hre : r.path ∈ expanded
    · rw [if_pos hre] at hmr
      rcases mem_addExpandedChildrenList expanded r.children m hmr with hc | ⟨p, hp, hpe, hmc⟩
      · refine ⟨r, ?_, hc⟩
        rw [getVisibleModules, List.mem_bind]
        exact ⟨r, hr, List.mem_cons_self _ _⟩
      · refine ⟨p, ?_, hmc⟩
        rw [getVisibleModules, List.mem_bind]
        refine ⟨r, hr, List.mem_cons_of_mem _ ?_⟩
        rw [addExpandedChildren, if_pos hre]
        exact hp
    · rw [if_neg hre] at hmr
      cases hmr

/-- Witness for C4 on a concrete two-level forest with the root expanded. -/
theorem getVisibleModules_parent_present_witness :
    ∃ p ∈ getVisibleModules
        [Module.mk "a" "a" "" 0 [Module.mk "b" "a/b" "a" 1 [] none] none]
        ({"a"} : Finset String),
      Module.mk "b" "a/b" "a" 1 [] none ∈ p.children := by
  refine getVisibleModules_parent_present _ _ ?_ _ ?_ ?_
  · refine ⟨?_, ?_, ?_, ?_⟩ <;>
      simp [forestNodes, Module.nodes, nodesList, Module.path, Module.level,
        Module.children, Module.parentPath]
  · simp [getVisibleModules, addExpandedChildren, addExpandedChildrenList,
      Module.path, Module.children]
  · simp [Module.level]

/-! ## Forest membership machinery shared by the visibility and drag claims -/

theorem self_mem_nodes (m : Module) : m ∈ m.nodes := by
  rw [Module.nodes]
  exact List.mem_cons_self _ _

theorem mem_nodesList_iff : ∀ (cs : List Module) (m : Module),
    m ∈ nodesList cs ↔ ∃ c ∈ cs, m ∈ c.nodes := by
  intro cs
  induction cs using moduleListInduction with
  | hnil => intro m; simp [nodesList]
  | hcons c cs ih1 ih2 =>
    intro m
    rw [nodesList_cons]
    constructor
    · intro h
      rcases List.mem_append.mp h with h1 | h2
      · rcases List.mem_cons.mp h1 with rfl | h1
        · exact ⟨m, List.mem_cons_self _ _, self_mem_nodes m⟩
        · refine ⟨c, List.mem_cons_self _ _, ?_⟩
          rw [Module.nodes]
          exact List.mem_cons_of_mem _ h1
      · obtain ⟨d, hd, hmd⟩ := (ih2 m).mp h2
        exact ⟨d, List.mem_cons_of_mem _ hd, hmd⟩
    · rintro ⟨d, hd, hmd⟩
      rcases List.mem_cons.mp hd with rfl | hd
      · rw [Module.nodes] at hmd
        rcases List.mem_cons.mp hmd with rfl | hmd
        · exact List.mem_append.mpr (Or.inl (List.mem_cons_self _ _))
        · exact List.mem_append.mpr (Or.inl (List.mem_cons_of_mem _ hmd))
      · exact List.mem_append.mpr (Or.inr ((ih2 m).mpr ⟨d, hd, hmd⟩))

/-- The subtree list of a member of a walked list is a sublist of the walk. -/
theorem nodes_sublist_nodesList : ∀ (cs : List Module) (c : Module), c ∈ cs →
    c.nodes.Sublist (nodesList cs) := by
  intro cs
  induction cs using moduleListInduction with
  | hnil => intro c hc; cases hc
  | hcons c cs ih1 ih2 =>
    intro d hd
    rw [nodesList_cons]
    rcases List.mem_cons.mp hd with rfl | hd
    · rw [Module.nodes]
      exact (List.sublist_append_left _ _)
    · exact (ih2 d hd).trans (List.sublist_append_right _ _)

theorem nodes_sublist_of_mem_nodes : ∀ (r m : Module), m ∈ r.nodes →
    m.nodes.Sublist r.nodes := by
  have key : ∀ r : Module, ∀ m ∈ r.nodes, m.nodes.Sublist r.nodes := by
    intro r
    induction r using moduleInduction with
    | h r ih =>
      intro m hm
      rw [Module.nodes] at hm
      rcases List.mem_cons.mp hm with rfl | hm
      · exact List.Sublist.refl _
      · obtain ⟨c, hc, hmc⟩ := (mem_nodesList_iff r.children m).mp hm
        refine ((ih c hc m hmc).trans (nodes_sublist_nodesList r.children c hc)).trans ?_
        rw [Module.nodes]
        exact List.sublist_cons_self _ _
  exact fun r m hm => key r m hm

theorem forestNodes_cons (a : Module) (roots : List Module) :
    forestNodes (a :: roots) = a.nodes ++ forestNodes roots := rfl

theorem nodes_sublist_root_bind : ∀ (roots : List Module) (r : Module), r ∈ roots →
    r.nodes.Sublist (forestNodes roots) := by
  intro roots
  induction roots with
  | nil => intro r hr; cases hr
  | cons a roots ih =>
    intro r hr
    rw [forestNodes_cons]
    rcases List.mem_cons.mp hr with rfl | hr
    · exact List.sublist_append_left _ _
    · exact (ih r hr).trans (List.sublist_append_right _ _)

theorem nodes_sublist_forest (roots : List Module) (m : Module)
    (hm : m ∈ forestNodes roots) : m.nodes.Sublist (forestNodes roots) := by
  rw [forestNodes, List.mem_bind] at hm
  obtain ⟨r, hr, hmr⟩ := hm
  exact (nodes_sublist_of_mem_nodes r m hmr).trans (nodes_sublist_root_bind roots r hr)

/-- The forest node list is closed under taking children. -/
theorem forest_closed (roots : List Module) (m : Module) (hm : m ∈ forestNodes roots)
    (c : Module) (hc : c ∈ m.children) : c ∈ forestNodes roots := by
  have h1 : c ∈ m.nodes := by
    rw [Module.nodes]
    refine List.mem_cons_of_mem _ ?_
    rw [mem_nodesList_iff]
    exact ⟨c, hc, self_mem_nodes c⟩
  exact (nodes_sublist_forest roots m hm).mem h1

/-- Unique paths make `Module.path` injective on forest nodes. -/
theorem path_inj (roots : List Module) (hwf : WF roots) (a b : Module)
    (ha : a ∈ forestNodes roots) (hb : b ∈ forestNodes roots)
    (hp : a.path = b.path) : a = b :=
  List.inj_on_of_nodup_map hwf.1 ha hb hp

/-- Every member of the expanded-children walk over a list is a node of one of
the walked subtrees. -/
theorem addExpandedChildrenList_subset_nodesList (expanded : Finset String) :
    ∀ cs : List Module, ∀ m ∈ addExpandedChildrenList expanded cs, m ∈ nodesList cs := by
  intro cs
  induction cs using moduleListInduction with
  | hnil => intro m hm; simp [addExpandedChildrenList] at hm
  | hcons c cs ih1 ih2 =>
    intro m hm
    rw [addExpandedChildrenList_cons] at hm
    rw [nodesList_cons]
    rcases List.mem_append.mp hm with hm1 | hm2
    · rcases List.mem_cons.mp hm1 with rfl | hm1
      · exact List.mem_append.mpr (Or.inl (List.mem_cons_self _ _))
      · by_cases hce : c.path ∈ expanded
        · rw [if_pos hce] at hm1
          have h2 : m ∈ nodesList c.children := ih1 m hm1
          exact List.mem_append.mpr (Or.inl (List.mem_cons_of_mem _ h2))
        · rw [if_neg hce] at hm1
          cases hm1
    · exact List.mem_append.mpr (Or.inr (ih2 m hm2))

/-- Visible modules are forest nodes. -/
theorem visible_subset_forest (roots : List Module) (expanded : Finset String)
    (m : Module) (hm : m ∈ getVisibleModules roots expanded) : m ∈ forestNodes roots := by
  rw [getVisibleModules, List.mem_bind] at hm
  obtain ⟨r, hr, hmr⟩ := hm
  have hrf : r ∈ forestNodes roots := by
    rw [forestNodes, List.mem_bind]
    exact ⟨r, hr, self_mem_nodes r⟩
  rcases List.mem_cons.mp hmr with rfl | hmr
  · exact hrf
  · rw [addExpandedChildren] at hmr
    by_cases hre : r.path ∈ expanded
    · rw [if_pos hre] at hmr
      have h2 : m ∈ nodesList r.children :=
        addExpandedChildrenList_subset_nodesList expanded r.children m hmr
      have h3 : m ∈ r.nodes := by
        rw [Module.nodes]
        exact List.mem_cons_of_mem _ h2
      exact (nodes_sublist_forest roots r hrf).mem h3
    · rw [if_neg hre] at hmr
      cases hmr

/-- A visible module is a root or the child of a visible expanded module. -/
theorem visible_parent (roots : List Module) (expanded : Finset String) (m : Module)
    (hm : m ∈ getVisibleModules roots expanded) :
    m ∈ roots ∨ ∃ p ∈ getVisibleModules roots expanded, p.path ∈ expanded ∧
      m ∈ p.children := by
  rw [getVisibleModules, List.mem_bind] at hm
  obtain ⟨r, hr, hmr⟩ := hm
  rcases List.mem_cons.mp hmr with rfl | hmr
  · exact Or.inl hr
  · rw [addExpandedChildren] at hmr
    by_cases hre : r.path ∈ expanded
    · rw [if_pos hre] at hmr
      rcases mem_addExpandedChildrenList expanded r.children m hmr with hc | ⟨p, hp, hpe, hmc⟩
      · refine Or.inr ⟨r, ?_, hre, hc⟩
        rw [getVisibleModules, List.mem_bind]
        exact ⟨r, hr, List.mem_cons_self _ _⟩
      · refine Or.inr ⟨p, ?_, hpe, hmc⟩
        rw [getVisibleModules, List.mem_bind]
        refine ⟨r, hr, List.mem_cons_of_mem _ ?_⟩
        rw [addExpandedChildren, if_pos hre]
        exact hp
    · rw [if_neg hre] at hmr
      cases hmr

/-- In a well-formed forest, a visible child forces its (unique) parent to be
visible and expanded. -/
theorem visible_child_parent (roots : List Module) (expanded : Finset String)
    (hwf : WF roots) (c : Module) (hcf : c ∈ forestNodes roots) (d : Module)
    (hd : d ∈ c.children) (hdv : d ∈ getVisibleModules roots expanded) :
    c ∈ getVisibleModules roots expanded ∧ c.path ∈ expanded := by
  have hlevel : d.level = c.level + 1 := hwf.2.2.1 c hcf d hd
  rcases visible_parent roots expanded d hdv with hroot | ⟨p, hpv, hpe, hdp⟩
  · have h0 := hwf.2.1 d hroot
    omega
  · have hpf : p ∈ forestNodes roots := visible_subset_forest roots expanded p hpv
    have h1 : d.parentPath = p.path := hwf.2.2.2 p hpf d hdp
    have h2 : d.parentPath = c.path := hwf.2.2.2 c hcf d hd
    have hpc : p = c := path_inj roots hwf p c hpf hcf (by rw [← h1, h2])
    subst hpc
    exact ⟨hpv, hpe⟩

/-- In a well-formed forest, any visible node of a subtree makes the subtree's
root visible. -/
theorem visible_of_descendant_visible (roots : List Module) (expanded : Finset String)
    (hwf : WF roots) :
    ∀ c : Module, c ∈ forestNodes roots → ∀ d ∈ c.nodes,
      d ∈ getVisibleModules roots expanded → c ∈ getVisibleModules roots expanded := by
  intro c
  induction c using moduleInduction with
  | h c ih =>
    intro hcf d hd hdv
    rw [Module.nodes] at hd
    rcases List.mem_cons.mp hd with rfl | hd
    · exact hdv
    · obtain ⟨c', hc', hdc'⟩ := (mem_nodesList_iff c.children d).mp hd
      have hc'f : c' ∈ forestNodes roots := forest_closed roots c hcf c' hc'
      have hc'v := ih c' hc' hc'f d hdc' hdv
      exact (visible_child_parent roots expanded hwf c hcf c' hc' hc'v).1

/-- In a well-formed forest, a visible strict descendant forces every node on
the way down to be visible; in particular the ancestor is visible and
expanded. -/
theorem visible_strict_descendant (roots : List Module) (expanded : Finset String)
    (hwf : WF roots) (c : Module) (hcf : c ∈ forestNodes roots) (d : Module)
    (hd : d ∈ nodesList c.children) (hdv : d ∈ getVisibleModules roots expanded) :
    c ∈ getVisibleModules roots expanded ∧ c.path ∈ expanded := by
  obtain ⟨c', hc', hdc'⟩ := (mem_nodesList_iff c.children d).mp hd
  have hc'f : c' ∈ forestNodes roots := forest_closed roots c hcf c' hc'
  have hc'v := visible_of_descendant_visible roots expanded hwf c' hc'f d hdc' hdv
  exact visible_child_parent roots expanded hwf c hcf c' hc' hc'v

/-! ## Connection gathering (claim C7) -/

theorem getConnsList_cons (vis : List Module) (c : Module) (cs : List Module) :
    getConnsList vis (c :: cs) =
      (if c ∈ vis then [] else ownConns vis c ++ getConnsList vis c.children)
        ++ getConnsList vis cs := by
  rw [getConnsList]

/-- All declared connections of the subtrees of a list of modules, in
preorder. -/
def subtreeDeclaredList (cs : List Module) : List Conn :=
  (nodesList cs).bind (fun n => n.connections.getD [])

theorem subtreeDeclared_eq (m : Module) :
    subtreeDeclared m = m.connections.getD [] ++ subtreeDeclaredList m.children := rfl

theorem getConnsList_nil (vis : List Module) : getConnsList vis [] = [] := by
  simp [getConnsList]

theorem subtreeDeclaredList_cons (c : Module) (cs : List Module) :
    subtreeDeclaredList (c :: cs) = subtreeDeclared c ++ subtreeDeclaredList cs := by
  simp only [subtreeDeclaredList, subtreeDeclared, Module.nodes]
  rw [nodesList_cons]
  simp

/-- On a subtree none of whose nodes is visible, the connection gathering of
`getConnectionsForModule` collects exactly every declared connection of the
subtree, in preorder. -/
theorem getConnsList_invisible (vis : List Module) :
    ∀ cs : List Module, (∀ n ∈ nodesList cs, n ∉ vis) →
      getConnsList vis cs = subtreeDeclaredList cs := by
  intro cs
  induction cs using moduleListInduction with
  | hnil =>
    intro _
    simp [getConnsList, subtreeDeclaredList, nodesList]
  | hcons c cs ih1 ih2 =>
    intro hinv
    have hmemc : c ∈ nodesList (c :: cs) := by
      rw [nodesList_cons]
      exact List.mem_append.mpr (Or.inl (List.mem_cons_self _ _))
    have hsubc : ∀ n ∈ nodesList c.children, n ∈ nodesList (c :: cs) := by
      intro n hn
      rw [nodesList_cons]
      exact List.mem_append.mpr (Or.inl (List.mem_cons_of_mem _ hn))
    have hsubcs : ∀ n ∈ nodesList cs, n ∈ nodesList (c :: cs) := by
      intro n hn
      rw [nodesList_cons]
      exact List.mem_append.mpr (Or.inr hn)
    have hnc : c ∉ vis := hinv c hmemc
    rw [getConnsList_cons, if_neg hnc, subtreeDeclaredList_cons, subtreeDeclared_eq]
    have hown : ownConns vis c = c.connections.getD [] := by
      rw [ownConns]
      cases hc : c.connections with
      | none => simp
      | some l =>
        have hany : c.children.any (fun x => decide (x ∈ vis)) = false := by
          rw [List.any_eq_false]
          intro x hx
          simp only [decide_eq_true_eq]
          refine hinv x (hsubc x ?_)
          rw [mem_nodesList_iff]
          exact ⟨x, hx, self_mem_nodes x⟩
        simp [hany, hc]
    rw [hown, ih1 (fun n hn => hinv n (hsubc n hn)), ih2 (fun n hn => hinv n (hsubcs n hn))]

/-- Claim C7 (amended): for a visible module `M` with declared connections and
no visible children, the connection-resolution step uses `M`'s own declared
connections *followed by* every connection declared anywhere in `M`'s
(entirely invisible) descendant subtrees — the collapsed descendants'
connections are also surfaced through `M`, not discarded. -/
theorem getConnectionsForModule_leaf_in_view (roots : List Module)
    (expanded : Finset String) (hwf : WF roots) (M : Module) (cs : List Conn)
    (hMv : M ∈ getVisibleModules roots expanded)
    (hconns : M.connections = some cs)
    (hleaf : ∀ c ∈ M.children, c ∉ getVisibleModules roots expanded) :
    getConnectionsForModule (getVisibleModules roots expanded) M
      = cs ++ subtreeDeclaredList M.children := by
  have hMf : M ∈ forestNodes roots := visible_subset_forest roots expanded M hMv
  have hinv : ∀ n ∈ nodesList M.children, n ∉ getVisibleModules roots expanded := by
    intro n hn hnv
    obtain ⟨c, hc, hnc⟩ := (mem_nodesList_iff M.children n).mp hn
    have hcf : c ∈ forestNodes roots := forest_closed roots M hMf c hc
    have hcv := visible_of_descendant_visible roots expanded hwf c hcf n hnc hnv
    exact hleaf c hc hcv
  rw [getConnectionsForModule, getConnsList_invisible _ M.children hinv]
  congr 1
  rw [ownConns, hconns]
  have hany : M.children.any (fun x => decide (x ∈ getVisibleModules roots expanded))
      = false := by
    rw [List.any_eq_false]
    intro x hx
    simp only [decide_eq_true_eq]
    exact hleaf x hx
  simp [hany]

/-! Concrete two-module tree used to settle C7: module `m` declares one
connection and its collapsed child `k` declares another. -/

def c7ConnOwn : Conn := ⟨"n", "data", "IF1", [], "m to n"⟩

def c7ConnChild : Conn := ⟨"n", "data", "IF2", [], "k to n"⟩

def c7Child : Module := Module.mk "k" "m/k" "m" 1 [] (some [c7ConnChild])

def c7Mod : Module := Module.mk "m" "m" "" 0 [c7Child] (some [c7ConnOwn])

/-- Counterexample to claim C7 as stated: the visible module `m` has declared
connections `[c7ConnOwn]` and no visible children, yet its resolved connection
list also contains its collapsed child's connection, so the list is *not* "its
declared connections and nothing else". -/
theorem getConnectionsForModule_leaf_counterexample :
    c7Mod ∈ getVisibleModules [c7Mod] ∅ ∧
    c7Mod.connections = some [c7ConnOwn] ∧
    c7Child ∉ getVisibleModules [c7Mod] ∅ ∧
    getConnectionsForModule (getVisibleModules [c7Mod] ∅) c7Mod
      = [c7ConnOwn, c7ConnChild] ∧
    ([c7ConnOwn, c7ConnChild] : List Conn) ≠ [c7ConnOwn] := by
  have hvis : getVisibleModules [c7Mod] ∅ = [c7Mod] := by
    simp [getVisibleModules, addExpandedChildren, addExpandedChildrenList]
  refine ⟨?_, rfl, ?_, ?_, ?_⟩
  · rw [hvis]; exact List.mem_cons_self _ _
  · rw [hvis]
    simp [c7Child, c7Mod, Module.path]
  · rw [hvis]
    rw [getConnectionsForModule]
    rw [show c7Mod.children = [c7Child] from rfl]
    rw [getConnsList_cons]
    rw [show c7Child.children = [] from rfl]
    simp [ownConns, c7Child, c7Mod, Module.connections, Module.children, Module.path,
      getConnsList_nil]
  · simp [c7ConnOwn, c7ConnChild]

/-- Witness for C7 (amended) on the concrete two-module tree. -/
theorem getConnectionsForModule_leaf_in_view_witness :
    getConnectionsForModule (getVisibleModules [c7Mod] ∅) c7Mod
      = [c7ConnOwn] ++ subtreeDeclaredList c7Mod.children := by
  refine getConnectionsForModule_leaf_in_view [c7Mod] ∅ ?_ c7Mod [c7ConnOwn] ?_ rfl ?_
  · refine ⟨?_, ?_, ?_, ?_⟩ <;>
      simp [forestNodes, Module.nodes, nodesList, Module.path, Module.level,
        Module.children, Module.parentPath, c7Mod, c7Child]
  · simp [getVisibleModules, addExpandedChildren, addExpandedChildrenList]
  · intro c hc
    simp only [c7Mod, Module.children, List.mem_singleton] at hc
    subst hc
    simp [getVisibleModules, addExpandedChildren, addExpandedChildrenList, c7Mod, c7Child]

/-! ## Edge aggregation (claim C8) -/

/-- Invariant of the aggregation map of `calculateConnectionPairs`: keys are
pairwise distinct (JavaScript `Map` semantics) and every entry's key is the
pair key of its stored endpoints. -/
def pairsInv (pairs : List (String × PairVal)) : Prop :=
  (pairs.map Prod.fst).Nodup ∧
  ∀ kv ∈ pairs, kv.1 = pairKey kv.2.fromModule kv.2.toModule

theorem pairsInv_nil : pairsInv [] := by
  constructor
  · exact List.nodup_nil
  · intro kv hkv
    cases hkv

theorem addConnToPairs_inv (pairs : List (String × PairVal)) (src dst : Module)
    (c : Conn) (h : pairsInv pairs) : pairsInv (addConnToPairs pairs src dst c) := by
  rw [addConnToPairs]
  by_cases hany : pairs.any (fun kv => decide (kv.1 = pairKey src dst)) = true
  · simp only [pairKey] at hany ⊢
    rw [if_pos hany]
    constructor
    · have hmap : (pairs.map (fun kv =>
          if kv.1 = src.path ++ "->" ++ dst.path then
            (kv.1, (⟨kv.2.fromModule, kv.2.toModule, kv.2.connections ++ [c]⟩ : PairVal))
          else kv)).map Prod.fst = pairs.map Prod.fst := by
        rw [List.map_map]
        refine List.map_congr_left ?_
        intro kv _
        by_cases hk : kv.1 = src.path ++ "->" ++ dst.path
        · simp [hk]
        · simp [hk]
      rw [hmap]
      exact h.1
    · intro kv hkv
      rw [List.mem_map] at hkv
      obtain ⟨kv0, hkv0, hmapped⟩ := hkv
      by_cases hk : kv0.1 = src.path ++ "->" ++ dst.path
      · rw [if_pos hk] at hmapped
        subst hmapped
        exact h.2 kv0 hkv0
      · rw [if_neg hk] at hmapped
        subst hmapped
        exact h.2 kv0 hkv0
  · rw [if_neg hany]
    rw [List.any_eq_true] at hany
    push_neg at hany
    constructor
    · rw [List.map_append]
      rw [List.nodup_append]
      refine ⟨h.1, List.nodup_singleton _, ?_⟩
      intro k hk hk2
      simp only [List.map_cons, List.map_nil, List.mem_singleton] at hk2
      subst hk2
      rw [List.mem_map] at hk
      obtain ⟨kv, hkv, hfst⟩ := hk
      exact absurd (decide_eq_true hfst) (hany kv hkv)
    · intro kv hkv
      rcases List.mem_append.mp hkv with hkv | hkv
      · exact h.2 kv hkv
      · simp only [List.mem_singleton] at hkv
        subst hkv
        rfl

theorem processModuleConns_inv (allNodes vis : List Module)
    (m : Module) : ∀ (l : List Conn) (pairs : List (String × PairVal)), pairsInv pairs →
    pairsInv (l.foldl (fun ps c =>
      match findTargetModule allNodes vis c.target with
      | some t => addConnToPairs ps m t c
      | none => ps) pairs) := by
  intro l
  induction l with
  | nil => intro pairs h; exact h
  | cons c l ih =>
    intro pairs h
    rw [List.foldl_cons]
    refine ih _ ?_
    cases findTargetModule allNodes vis c.target with
    | some t => exact addConnToPairs_inv pairs m t c h
    | none => exact h

theorem foldl_processModuleConns_inv (allNodes vis : List Module) :
    ∀ (ms : List Module) (pairs : List (String × PairVal)), pairsInv pairs →
    pairsInv (ms.foldl (processModuleConns allNodes vis) pairs) := by
  intro ms
  induction ms with
  | nil => intro pairs h; exact h
  | cons m ms ih =>
    intro pairs h
    rw [List.foldl_cons]
    exact ih _ (processModuleConns_inv allNodes vis m _ pairs h)

/-! Concrete two-root scenario for C8: module `x` declares two connections
both targeting the sibling root `y`. -/

def c8Conn1 : Conn := ⟨"y", "data", "SPI", [], "first link"⟩

def c8Conn2 : Conn := ⟨"y", "data", "I2C", [], "second link"⟩

def c8X : Module := Module.mk "x" "x" "" 0 [] (some [c8Conn1, c8Conn2])

def c8Y : Module := Module.mk "y" "y" "" 0 [] none

/-- Claim C8: (i) all connections whose resolved visible (source, target) pair
coincide are aggregated into exactly one edge — two distinct entries of
`calculateConnectionPairs` never share both endpoint paths; (ii) the rendered
edge thickness is a monotonically non-decreasing function of the number of
aggregated connections, clamped to the fixed range [2, 8]; (iii) concretely,
two connections both resolving to the visible pair (x, y) yield the single
edge (x, y) carrying both connections (count 2). -/
theorem calculateConnectionPairs_aggregation :
    (∀ (allNodes vis : List Module) (e1 e2 : PairVal),
        e1 ∈ calculateConnectionPairs allNodes vis →
        e2 ∈ calculateConnectionPairs allNodes vis →
        e1.fromModule.path = e2.fromModule.path →
        e1.toModule.path = e2.toModule.path → e1 = e2) ∧
    (∀ a b : Nat, a ≤ b → connectionThickness a ≤ connectionThickness b) ∧
    (∀ n : Nat, 2 ≤ connectionThickness n ∧ connectionThickness n ≤ 8) ∧
    calculateConnectionPairs (forestNodes [c8X, c8Y]) (getVisibleModules [c8X, c8Y] ∅)
      = [⟨c8X, c8Y, [c8Conn1, c8Conn2]⟩] := by
  refine ⟨?_, ?_, ?_, ?_⟩
  · intro allNodes vis e1 e2 h1 h2 hf ht
    have hinv : pairsInv (vis.foldl (processModuleConns allNodes vis) []) :=
      foldl_processModuleConns_inv allNodes vis vis [] pairsInv_nil
    rw [calculateConnectionPairs] at h1 h2
    rw [List.mem_map] at h1 h2
    obtain ⟨kv1, hkv1, hsnd1⟩ := h1
    obtain ⟨kv2, hkv2, hsnd2⟩ := h2
    have hk1 := hinv.2 kv1 hkv1
    have hk2 := hinv.2 kv2 hkv2
    have hkey : kv1.1 = kv2.1 := by
      rw [hk1, hk2, hsnd1, hsnd2, pairKey, pairKey, hf, ht]
    have hkv12 : kv1 = kv2 :=
      List.inj_on_of_nodup_map hinv.1 hkv1 hkv2 hkey
    rw [← hsnd1, ← hsnd2, hkv12]
  · intro a b hab
    rw [connectionThickness, connectionThickness]
    omega
  · intro n
    rw [connectionThickness]
    omega
  · have hvis : getVisibleModules [c8X, c8Y] ∅ = [c8X, c8Y] := by
      simp [getVisibleModules, addExpandedChildren, addExpandedChildrenList]
    have hforest : forestNodes [c8X, c8Y] = [c8X, c8Y] := by
      simp [forestNodes, Module.nodes, nodesList, c8X, c8Y, Module.children]
    rw [hvis, hforest, calculateConnectionPairs]
    have hfind : findTargetModule [c8X, c8Y] [c8X, c8Y] "y" = some c8Y := by
      rw [findTargetModule, if_neg (by decide)]
      have : List.find? (fun m => decide (m.path = "y")) [c8X, c8Y] = some c8Y := by
        simp [List.find?, c8X, c8Y, Module.path]
      rw [this]
      simp
    have hconnsX : getConnectionsForModule [c8X, c8Y] c8X = [c8Conn1, c8Conn2] := by
      rw [getConnectionsForModule]
      simp [ownConns, c8X, c8Y, Module.connections, Module.children, Module.path,
        getConnsList_nil]
    have hconnsY : getConnectionsForModule [c8X, c8Y] c8Y = [] := by
      rw [getConnectionsForModule]
      simp [ownConns, c8Y, Module.connections, Module.children, getConnsList_nil]
    have h1 : processModuleConns [c8X, c8Y] [c8X, c8Y] [] c8X
        = [("x->y", ⟨c8X, c8Y, [c8Conn1, c8Conn2]⟩)] := by
      rw [processModuleConns, hconnsX, List.foldl_cons, List.foldl_cons, List.foldl_nil,
        show c8Conn1.target = "y" from rfl, show c8Conn2.target = "y" from rfl, hfind]
      simp [addConnToPairs, pairKey, c8X, c8Y, Module.path]
    have h2 : processModuleConns [c8X, c8Y] [c8X, c8Y]
        [("x->y", ⟨c8X, c8Y, [c8Conn1, c8Conn2]⟩)] c8Y
        = [("x->y", ⟨c8X, c8Y, [c8Conn1, c8Conn2]⟩)] := by
      rw [processModuleConns, hconnsY, List.foldl_nil]
    rw [List.foldl_cons, List.foldl_cons, List.foldl_nil, h1, h2]
    simp

/-- Witness for C8: the concrete aggregated edge coincides with itself via the
uniqueness conjunct, and the thickness behaves monotonically at 1 and 2. -/
theorem calculateConnectionPairs_aggregation_witness :
    (⟨c8X, c8Y, [c8Conn1, c8Conn2]⟩ : PairVal) = ⟨c8X, c8Y, [c8Conn1, c8Conn2]⟩ ∧
    connectionThickness 1 ≤ connectionThickness 2 := by
  constructor
  · refine calculateConnectionPairs_aggregation.1 (forestNodes [c8X, c8Y])
      (getVisibleModules [c8X, c8Y] ∅) _ _ ?_ ?_ rfl rfl
    · rw [calculateConnectionPairs_aggregation.2.2.2]
      exact List.mem_singleton.mpr rfl
    · rw [calculateConnectionPairs_aggregation.2.2.2]
      exact List.mem_singleton.mpr rfl
  · exact calculateConnectionPairs_aggregation.2.1 1 2 (by norm_num)

/-! ## Rigid container dragging (claim C6) -/

theorem setPos_apply (pm : PosMap) (p : String) (b : Box) (q : String) :
    setPos pm p b q = if q = p then some b else pm q := rfl

theorem shiftBox_zero (b : Box) : shiftBox 0 0 b = b := by
  simp [shiftBox]

theorem moveList_nil (vis : List Module) (expanded : Finset String) (dx dy : ℚ)
    (pm : PosMap) : moveList vis expanded dx dy [] pm = pm := by
  simp [moveList]

theorem moveList_cons (vis : List Module) (expanded : Finset String) (dx dy : ℚ)
    (c : Module) (cs : List Module) (pm : PosMap) :
    moveList vis expanded dx dy (c :: cs) pm =
      moveList vis expanded dx dy cs
        (if c ∈ vis then
          match pm c.path with
          | some b =>
            if c.path ∈ expanded then
              moveList vis expanded dx dy c.children (setPos pm c.path (shiftBox dx dy b))
            else setPos pm c.path (shiftBox dx dy b)
          | none => pm
        else pm) := by
  rw [moveList]

theorem moveList_cons_not_vis (vis : List Module) (expanded : Finset String) (dx dy : ℚ)
    (c : Module) (cs : List Module) (pm : PosMap) (h : c ∉ vis) :
    moveList vis expanded dx dy (c :: cs) pm = moveList vis expanded dx dy cs pm := by
  rw [moveList_cons, if_neg h]

theorem moveList_cons_no_box (vis : List Module) (expanded : Finset String) (dx dy : ℚ)
    (c : Module) (cs : List Module) (pm : PosMap) (h : c ∈ vis) (hb : pm c.path = none) :
    moveList vis expanded dx dy (c :: cs) pm = moveList vis expanded dx dy cs pm := by
  rw [moveList_cons]
  simp only [if_pos h, hb]

theorem moveList_cons_box_exp (vis : List Module) (expanded : Finset String) (dx dy : ℚ)
    (c : Module) (cs : List Module) (pm : PosMap) (b : Box) (h : c ∈ vis)
    (hb : pm c.path = some b) (he : c.path ∈ expanded) :
    moveList vis expanded dx dy (c :: cs) pm =
      moveList vis expanded dx dy cs
        (moveList vis expanded dx dy c.children (setPos pm c.path (shiftBox dx dy b))) := by
  rw [moveList_cons]
  simp only [if_pos h, hb, if_pos he]

theorem moveList_cons_box_noexp (vis : List Module) (expanded : Finset String) (dx dy : ℚ)
    (c : Module) (cs : List Module) (pm : PosMap) (b : Box) (h : c ∈ vis)
    (hb : pm c.path = some b) (he : c.path ∉ expanded) :
    moveList vis expanded dx dy (c :: cs) pm =
      moveList vis expanded dx dy cs (setPos pm c.path (shiftBox dx dy b)) := by
  rw [moveList_cons]
  simp only [if_pos h, hb, if_neg he]

theorem movedNodes_nil (vis : List Module) (expanded : Finset String) :
    movedNodes vis expanded [] = [] := by
  simp [movedNodes]

theorem movedNodes_cons (vis : List Module) (expanded : Finset String) (c : Module)
    (cs : List Module) :
    movedNodes vis expanded (c :: cs) =
      (if c ∈ vis then
        c :: (if c.path ∈ expanded then movedNodes vis expanded c.children else [])
       else []) ++ movedNodes vis expanded cs := by
  rw [movedNodes]

theorem movedNodes_subset_nodesList (vis : List Module) (expanded : Finset String) :
    ∀ cs : List Module, ∀ d ∈ movedNodes vis expanded cs, d ∈ nodesList cs := by
  intro cs
  induction cs using moduleListInduction with
  | hnil =>
    intro d hd
    rw [movedNodes_nil] at hd
    cases hd
  | hcons c cs ih1 ih2 =>
    intro d hd
    rw [movedNodes_cons] at hd
    rw [nodesList_cons]
    rcases List.mem_append.mp hd with hd1 | hd2
    · by_cases hcv : c ∈ vis
      · rw [if_pos hcv] at hd1
        rcases List.mem_cons.mp hd1 with rfl | hd1
        · exact List.mem_append.mpr (Or.inl (List.mem_cons_self _ _))
        · by_cases hce : c.path ∈ expanded
          · rw [if_pos hce] at hd1
            exact List.mem_append.mpr (Or.inl (List.mem_cons_of_mem _ (ih1 d hd1)))
          · rw [if_neg hce] at hd1
            cases hd1
      · rw [if_neg hcv] at hd1
        cases hd1
    · exact List.mem_append.mpr (Or.inr (ih2 d hd2))

/-- Frame property: the move walk only ever writes paths of nodes of the walked
subtrees. -/
theorem moveList_frame (vis : List Module) (expanded : Finset String) (dx dy : ℚ) :
    ∀ (cs : List Module) (pm : PosMap) (q : String),
      q ∉ (nodesList cs).map Module.path → moveList vis expanded dx dy cs pm q = pm q := by
  intro cs
  induction cs using moduleListInduction with
  | hnil =>
    intro pm q _
    rw [moveList_nil]
  | hcons c cs ih1 ih2 =>
    intro pm q hq
    rw [nodesList_cons] at hq
    have hqcs : q ∉ (nodesList cs).map Module.path := by
      intro h
      exact hq (by rw [List.map_append]; exact List.mem_append.mpr (Or.inr h))
    have hqc : q ≠ c.path := by
      intro h
      refine hq ?_
      rw [List.map_append]
      exact List.mem_append.mpr (Or.inl (by rw [List.map_cons]; exact h ▸ List.mem_cons_self _ _))
    have hqchildren : q ∉ (nodesList c.children).map Module.path := by
      intro h
      refine hq ?_
      rw [List.map_append]
      exact List.mem_append.mpr (Or.inl (by rw [List.map_cons]; exact List.mem_cons_of_mem _ h))
    by_cases hcv : c ∈ vis
    · cases hb : pm c.path with
      | some b =>
        by_cases hce : c.path ∈ expanded
        · rw [moveList_cons_box_exp vis expanded dx dy c cs pm b hcv hb hce,
            ih2 _ q hqcs, ih1 _ q hqchildren, setPos_apply, if_neg hqc]
        · rw [moveList_cons_box_noexp vis expanded dx dy c cs pm b hcv hb hce,
            ih2 _ q hqcs, setPos_apply, if_neg hqc]
      | none =>
        rw [moveList_cons_no_box vis expanded dx dy c cs pm hcv hb, ih2 _ q hqcs]
    · rw [moveList_cons_not_vis vis expanded dx dy c cs pm hcv, ih2 _ q hqcs]

theorem mem_nodesList_self (c : Module) (cs : List Module) : c ∈ nodesList (c :: cs) := by
  rw [nodesList_cons]
  exact List.mem_append.mpr (Or.inl (List.mem_cons_self _ _))

theorem mem_nodesList_of_children (c : Module) (cs : List Module) (d : Module)
    (hd : d ∈ nodesList c.children) : d ∈ nodesList (c :: cs) := by
  rw [nodesList_cons]
  exact List.mem_append.mpr (Or.inl (List.mem_cons_of_mem _ hd))

theorem mem_nodesList_of_tail (c : Module) (cs : List Module) (d : Module)
    (hd : d ∈ nodesList cs) : d ∈ nodesList (c :: cs) := by
  rw [nodesList_cons]
  exact List.mem_append.mpr (Or.inr hd)

theorem movedNodes_paths_subset (vis : List Module) (expanded : Finset String)
    (cs : List Module) (q : String)
    (hq : q ∈ (movedNodes vis expanded cs).map Module.path) :
    q ∈ (nodesList cs).map Module.path := by
  rw [List.mem_map] at hq ⊢
  obtain ⟨d, hd, rfl⟩ := hq
  exact ⟨d, movedNodes_subset_nodesList vis expanded cs d hd, rfl⟩

/-- Semantics of the move walk when every visible node of the walked subtrees
has a stored box: exactly the nodes in `movedNodes` are translated by the drag
delta, every other path is untouched. -/
theorem moveList_semantics (vis : List Module) (expanded : Finset String) (dx dy : ℚ) :
    ∀ (cs : List Module) (pm : PosMap),
      ((nodesList cs).map Module.path).Nodup →
      (∀ d ∈ nodesList cs, d ∈ vis → (pm d.path).isSome) →
      ∀ q : String,
        moveList vis expanded dx dy cs pm q =
          if q ∈ (movedNodes vis expanded cs).map Module.path
          then (pm q).map (shiftBox dx dy) else pm q := by
  intro cs
  induction cs using moduleListInduction with
  | hnil =>
    intro pm _ _ q
    rw [moveList_nil, movedNodes_nil]
    simp
  | hcons c cs ih1 ih2 =>
    intro pm hnodup hbox q
    rw [nodesList_cons, List.map_append, List.map_cons, List.nodup_append] at hnodup
    obtain ⟨hnodup1, hnodup_cs, hdisj⟩ := hnodup
    rw [List.nodup_cons] at hnodup1
    obtain ⟨hc_not_children, hnodup_children⟩ := hnodup1
    have hc_not_cs : c.path ∉ (nodesList cs).map Module.path := by
      intro h
      exact hdisj (List.mem_cons_self _ _) h
    have hdisj2 : ∀ q', q' ∈ (nodesList c.children).map Module.path →
        q' ∉ (nodesList cs).map Module.path := by
      intro q' h1 h2
      exact hdisj (List.mem_cons_of_mem _ h1) h2
    by_cases hcv : c ∈ vis
    · obtain ⟨b, hb⟩ := Option.isSome_iff_exists.mp
        (hbox c (mem_nodesList_self c cs) hcv)
      have hpm2 : ∀ q', setPos pm c.path (shiftBox dx dy b) q' =
          if q' = c.path then some (shiftBox dx dy b) else pm q' := fun q' => rfl
      by_cases hce : c.path ∈ expanded
      · rw [moveList_cons_box_exp vis expanded dx dy c cs pm b hcv hb hce]
        have hinner : ∀ q' : String,
            moveList vis expanded dx dy c.children (setPos pm c.path (shiftBox dx dy b)) q' =
              if q' ∈ (movedNodes vis expanded c.children).map Module.path
              then (setPos pm c.path (shiftBox dx dy b) q').map (shiftBox dx dy)
              else setPos pm c.path (shiftBox dx dy b) q' := by
          refine ih1 _ hnodup_children ?_
          intro d hd hdv
          rw [hpm2 d.path]
          by_cases hdc : d.path = c.path
          · rw [if_pos hdc]
            rfl
          · rw [if_neg hdc]
            exact hbox d (mem_nodesList_of_children c cs d hd) hdv
        have hboxcs : ∀ d ∈ nodesList cs, d ∈ vis →
            ((moveList vis expanded dx dy c.children
              (setPos pm c.path (shiftBox dx dy b))) d.path).isSome := by
          intro d hd hdv
          rw [hinner d.path]
          have hdpath : d.path ∈ (nodesList cs).map Module.path :=
            List.mem_map.mpr ⟨d, hd, rfl⟩
          have hdnot : d.path ∉ (movedNodes vis expanded c.children).map Module.path := by
            intro h
            exact hdisj2 d.path (movedNodes_paths_subset vis expanded c.children d.path h)
              hdpath
          rw [if_neg hdnot, hpm2 d.path,
            if_neg (fun h => hc_not_cs (by rw [← h]; exact hdpath))]
          exact hbox d (mem_nodesList_of_tail c cs d hd) hdv
        have houter := ih2 (moveList vis expanded dx dy c.children
            (setPos pm c.path (shiftBox dx dy b))) hnodup_cs hboxcs q
        rw [houter, movedNodes_cons, if_pos hcv, if_pos hce, List.map_append,
          List.map_cons]
        by_cases hq1 : q ∈ (movedNodes vis expanded cs).map Module.path
        · have hqcs : q ∈ (nodesList cs).map Module.path :=
            movedNodes_paths_subset vis expanded cs q hq1
          have hqnotmpc : q ∉ (movedNodes vis expanded c.children).map Module.path := by
            intro h
            exact hdisj2 q (movedNodes_paths_subset vis expanded c.children q h) hqcs
          have hqnec : q ≠ c.path := fun h => hc_not_cs (by rw [← h]; exact hqcs)
          rw [if_pos hq1, hinner q, if_neg hqnotmpc, hpm2 q, if_neg hqnec,
            if_pos (List.mem_append.mpr (Or.inr hq1))]
        · rw [if_neg hq1]
          by_cases hq2 : q = c.path
          · have hqnotmpc : c.path ∉ (movedNodes vis expanded c.children).map Module.path := by
              intro h
              exact hc_not_children (movedNodes_paths_subset vis expanded c.children c.path h)
            rw [hq2, hinner c.path, if_neg hqnotmpc, hpm2 c.path, if_pos rfl,
              if_pos (List.mem_append.mpr (Or.inl (List.mem_cons_self _ _))), hb]
            rfl
          · by_cases hq3 : q ∈ (movedNodes vis expanded c.children).map Module.path
            · rw [hinner q, if_pos hq3, hpm2 q, if_neg hq2,
                if_pos (List.mem_append.mpr (Or.inl (List.mem_cons_of_mem _ hq3)))]
            · rw [hinner q, if_neg hq3, hpm2 q, if_neg hq2,
                if_neg ?_]
              intro h
              rcases List.mem_append.mp h with h1 | h2
              · rcases List.mem_cons.mp h1 with h1 | h1
                · exact hq2 h1
                · exact hq3 h1
              · exact hq1 h2
      · rw [moveList_cons_box_noexp vis expanded dx dy c cs pm b hcv hb hce]
        have hboxcs : ∀ d ∈ nodesList cs, d ∈ vis →
            ((setPos pm c.path (shiftBox dx dy b)) d.path).isSome := by
          intro d hd hdv
          have hdpath : d.path ∈ (nodesList cs).map Module.path :=
            List.mem_map.mpr ⟨d, hd, rfl⟩
          rw [hpm2 d.path, if_neg (fun h => hc_not_cs (by rw [← h]; exact hdpath))]
          exact hbox d (mem_nodesList_of_tail c cs d hd) hdv
        have houter := ih2 (setPos pm c.path (shiftBox dx dy b)) hnodup_cs hboxcs q
        rw [houter, movedNodes_cons, if_pos hcv, if_neg hce, List.map_append,
          List.map_cons, List.map_nil]
        by_cases hq1 : q ∈ (movedNodes vis expanded cs).map Module.path
        · have hqcs : q ∈ (nodesList cs).map Module.path :=
            movedNodes_paths_subset vis expanded cs q hq1
          have hqnec : q ≠ c.path := fun h => hc_not_cs (by rw [← h]; exact hqcs)
          rw [if_pos hq1, hpm2 q, if_neg hqnec,
            if_pos (List.mem_append.mpr (Or.inr hq1))]
        · rw [if_neg hq1]
          by_cases hq2 : q = c.path
          · rw [hq2, hpm2 c.path, if_pos rfl,
              if_pos (List.mem_append.mpr (Or.inl (List.mem_cons_self _ _))), hb]
            rfl
          · rw [hpm2 q, if_neg hq2, if_neg ?_]
            intro h
            rcases List.mem_append.mp h with h1 | h2
            · rcases List.mem_cons.mp h1 with h1 | h1
              · exact hq2 h1
              · cases h1
            · exact hq1 h2
    · rw [moveList_cons_not_vis vis expanded dx dy c cs pm hcv, movedNodes_cons,
        if_neg hcv, List.nil_append]
      refine ih2 pm hnodup_cs ?_ q
      intro d hd hdv
      exact hbox d (mem_nodesList_of_tail c cs d hd) hdv

theorem movedNodes_mem_lift (vis : List Module) (expanded : Finset String)
    (d : Module) :
    ∀ (cs : List Module) (c : Module), c ∈ cs → c ∈ vis →
      (d = c ∨ (c.path ∈ expanded ∧ d ∈ movedNodes vis expanded c.children)) →
      d ∈ movedNodes vis expanded cs := by
  intro cs
  induction cs with
  | nil => intro c hc; cases hc
  | cons a cs ih =>
    intro c hc hcv hd
    rw [movedNodes_cons]
    rcases List.mem_cons.mp hc with rfl | hc
    · rw [if_pos hcv]
      refine List.mem_append.mpr (Or.inl ?_)
      rcases hd with rfl | ⟨hce, hdm⟩
      · exact List.mem_cons_self _ _
      · rw [if_pos hce]
        exact List.mem_cons_of_mem _ hdm
    · exact List.mem_append.mpr (Or.inr (ih c hc hcv hd))

/-- Completeness of the move walk: in a well-formed forest, every *visible*
node below a visible expanded container is among the nodes the walk moves. -/
theorem movedNodes_complete (roots : List Module) (expanded : Finset String)
    (hwf : WF roots) :
    ∀ par : Module, par ∈ forestNodes roots →
      par ∈ getVisibleModules roots expanded → par.path ∈ expanded →
      ∀ d ∈ nodesList par.children, d ∈ getVisibleModules roots expanded →
        d ∈ movedNodes (getVisibleModules roots expanded) expanded par.children := by
  intro par
  induction par using moduleInduction with
  | h par ih =>
    intro hparf hparv hpare d hd hdv
    obtain ⟨c, hc, hdc⟩ := (mem_nodesList_iff par.children d).mp hd
    have hcf : c ∈ forestNodes roots := forest_closed roots par hparf c hc
    rw [Module.nodes] at hdc
    rcases List.mem_cons.mp hdc with hdc1 | hdc2
    · exact movedNodes_mem_lift _ expanded d par.children c hc
        (by rw [← hdc1]; exact hdv) (Or.inl hdc1)
    · obtain ⟨hcv, hce⟩ :=
        visible_strict_descendant roots expanded hwf c hcf d hdc2 hdv
      have hdm := ih c hc hcf hcv hce d hdc2 hdv
      exact movedNodes_mem_lift _ expanded d par.children c hc hcv (Or.inr ⟨hce, hdm⟩)

/-- In a well-formed forest the paths within any member subtree are distinct. -/
theorem subtree_paths_nodup (roots : List Module) (hwf : WF roots) (m : Module)
    (hm : m ∈ forestNodes roots) : (m.nodes.map Module.path).Nodup :=
  hwf.1.sublist ((nodes_sublist_forest roots m hm).map Module.path)

/-- Claim C6 (amended): in a well-formed forest, when every visible module has
a stored box, applying the drag position update `updateModulePosition` to a
visible expanded container `m` (moving it by `(dx, dy)`) translates the stored
box of every currently visible descendant of `m` by exactly `(dx, dy)` —
position only, size untouched — moves `m`'s own box to the new position with
unchanged size, and leaves the stored box of every other path (neither `m` nor
a node of `m`'s subtree) unchanged. -/
theorem updateModulePosition_rigid_drag (roots : List Module) (expanded : Finset String)
    (hwf : WF roots) (m : Module) (pm : PosMap)
    (hmv : m ∈ getVisibleModules roots expanded) (hme : m.path ∈ expanded)
    (hbox : ∀ v ∈ getVisibleModules roots expanded, (pm v.path).isSome)
    (dx dy : ℚ) (b : Box) (hmb : pm m.path = some b) :
    (∀ d ∈ nodesList m.children, d ∈ getVisibleModules roots expanded →
      updateModulePosition roots expanded m (b.x + dx) (b.y + dy) pm d.path
        = (pm d.path).map (shiftBox dx dy)) ∧
    (updateModulePosition roots expanded m (b.x + dx) (b.y + dy) pm m.path
        = some ⟨b.x + dx, b.y + dy, b.width, b.height⟩) ∧
    (∀ q : String, q ≠ m.path → q ∉ (nodesList m.children).map Module.path →
      updateModulePosition roots expanded m (b.x + dx) (b.y + dy) pm q = pm q) := by
  have hmf : m ∈ forestNodes roots := visible_subset_forest roots expanded m hmv
  have hnodup_subtree : (m.nodes.map Module.path).Nodup :=
    subtree_paths_nodup roots hwf m hmf
  rw [Module.nodes, List.map_cons, List.nodup_cons] at hnodup_subtree
  obtain ⟨hm_not_children, hnodup_children⟩ := hnodup_subtree
  have hupd : updateModulePosition roots expanded m (b.x + dx) (b.y + dy) pm =
      if m.path ∈ expanded ∧ (b.x + dx - b.x ≠ 0 ∨ b.y + dy - b.y ≠ 0) then
        moveAllDescendants roots expanded (b.x + dx - b.x) (b.y + dy - b.y) m
          (setPos pm m.path ⟨b.x + dx, b.y + dy, b.width, b.height⟩)
      else setPos pm m.path ⟨b.x + dx, b.y + dy, b.width, b.height⟩ := by
    rw [updateModulePosition]
    simp only [hmb]
  have hdx : b.x + dx - b.x = dx := by ring
  have hdy : b.y + dy - b.y = dy := by ring
  rw [hdx, hdy] at hupd
  have hpm1 : ∀ q', setPos pm m.path ⟨b.x + dx, b.y + dy, b.width, b.height⟩ q' =
      if q' = m.path then some ⟨b.x + dx, b.y + dy, b.width, b.height⟩ else pm q' :=
    fun q' => rfl
  by_cases hzero : dx = 0 ∧ dy = 0
  · obtain ⟨hdx0, hdy0⟩ := hzero
    subst hdx0
    subst hdy0
    rw [if_neg (by simp)] at hupd
    refine ⟨?_, ?_, ?_⟩
    · intro d hd hdv
      have hdpath : d.path ∈ (nodesList m.children).map Module.path :=
        List.mem_map.mpr ⟨d, hd, rfl⟩
      have hdne : d.path ≠ m.path := fun h => hm_not_children (by rw [← h]; exact hdpath)
      rw [hupd, hpm1 d.path, if_neg hdne]
      cases pm d.path with
      | none => rfl
      | some bb => simp [shiftBox_zero]
    · rw [hupd, hpm1 m.path, if_pos rfl]
    · intro q hq1 _
      rw [hupd, hpm1 q, if_neg hq1]
  · have hcond : m.path ∈ expanded ∧ (dx ≠ 0 ∨ dy ≠ 0) := by
      refine ⟨hme, ?_⟩
      by_cases h1 : dx = 0
      · exact Or.inr (fun h2 => hzero ⟨h1, h2⟩)
      · exact Or.inl h1
    rw [if_pos hcond] at hupd
    rw [moveAllDescendants] at hupd
    have hboxes : ∀ d ∈ nodesList m.children, d ∈ getVisibleModules roots expanded →
        ((setPos pm m.path ⟨b.x + dx, b.y + dy, b.width, b.height⟩) d.path).isSome := by
      intro d hd hdv
      rw [hpm1 d.path]
      by_cases hdm : d.path = m.path
      · rw [if_pos hdm]
        rfl
      · rw [if_neg hdm]
        exact hbox d hdv
    have hsem := moveList_semantics (getVisibleModules roots expanded) expanded dx dy
      m.children (setPos pm m.path ⟨b.x + dx, b.y + dy, b.width, b.height⟩)
      hnodup_children hboxes
    refine ⟨?_, ?_, ?_⟩
    · intro d hd hdv
      have hdmoved : d ∈ movedNodes (getVisibleModules roots expanded) expanded m.children :=
        movedNodes_complete roots expanded hwf m hmf hmv hme d hd hdv
      have hdpath : d.path ∈
          (movedNodes (getVisibleModules roots expanded) expanded m.children).map
            Module.path := List.mem_map.mpr ⟨d, hdmoved, rfl⟩
      have hdnp : d.path ∈ (nodesList m.children).map Module.path :=
        List.mem_map.mpr ⟨d, hd, rfl⟩
      have hdne : d.path ≠ m.path := fun h => hm_not_children (by rw [← h]; exact hdnp)
      rw [hupd, hsem d.path, if_pos hdpath, hpm1 d.path, if_neg hdne]
    · have hmnot : m.path ∉
          (movedNodes (getVisibleModules roots expanded) expanded m.children).map
            Module.path := by
        intro h
        exact hm_not_children (movedNodes_paths_subset _ expanded m.children m.path h)
      rw [hupd, hsem m.path, if_neg hmnot, hpm1 m.path, if_pos rfl]
    · intro q hq1 hq2
      have hqnot : q ∉
          (movedNodes (getVisibleModules roots expanded) expanded m.children).map
            Module.path := by
        intro h
        exact hq2 (movedNodes_paths_subset _ expanded m.children q h)
      rw [hupd, hsem q, if_neg hqnot, hpm1 q, if_neg hq1]

/-! Concrete three-level forest for C6: container `p`, its child `c`, and the
grandchild `g`; both `p` and `c` are expanded so all three are visible. -/

def c6G : Module := Module.mk "g" "p/c/g" "p/c" 2 [] none

def c6C : Module := Module.mk "c" "p/c" "p" 1 [c6G] none

def c6P : Module := Module.mk "p" "p" "" 0 [c6C] none

def c6Exp : Finset String := {"p", "p/c"}

/-- Box map in which the intermediate visible child `p/c` has *no* stored box
(its grandchild does). -/
def c6pm : PosMap := fun q =>
  if q = "p" then some ⟨50, 50, 250, 120⟩
  else if q = "p/c/g" then some ⟨7, 8, 140, 80⟩
  else none

theorem c6_vis_eval : getVisibleModules [c6P] c6Exp = [c6P, c6C, c6G] := by
  simp [getVisibleModules, addExpandedChildren, addExpandedChildrenList,
    c6P, c6C, c6G, c6Exp, Module.path, Module.children]

/-- Counterexample to claim C6 as stated (over *every* box map): in the box map
`c6pm` the visible descendant `g` has a stored box but the intermediate child
`c` has none, so dragging the expanded container `p` by `(10, 0)` does *not*
translate `g`'s stored box — the walk stops at the box-less child. -/
theorem updateModulePosition_missing_box_counterexample :
    c6G ∈ getVisibleModules [c6P] c6Exp ∧
    c6G ∈ nodesList (Module.children c6P) ∧
    c6pm "p" = some ⟨50, 50, 250, 120⟩ ∧
    updateModulePosition [c6P] c6Exp c6P 60 50 c6pm "p/c/g" = some ⟨7, 8, 140, 80⟩ ∧
    (c6pm "p/c/g").map (shiftBox 10 0) = some ⟨17, 8, 140, 80⟩ ∧
    some (⟨7, 8, 140, 80⟩ : Box) ≠ some (⟨17, 8, 140, 80⟩ : Box) := by
  refine ⟨?_, ?_, ?_, ?_, ?_, ?_⟩
  · rw [c6_vis_eval]
    simp
  · simp [c6P, c6C, c6G, Module.children, nodesList_cons, nodesList]
  · rfl
  · have hcur : c6pm (Module.path c6P) = some ⟨50, 50, 250, 120⟩ := rfl
    have h1 : updateModulePosition [c6P] c6Exp c6P 60 50 c6pm =
        moveList (getVisibleModules [c6P] c6Exp) c6Exp (60 - 50) (50 - 50)
          (Module.children c6P) (setPos c6pm (Module.path c6P) ⟨60, 50, 250, 120⟩) := by
      simp only [updateModulePosition, hcur]
      rw [if_pos ⟨by simp [c6P, Module.path, c6Exp], Or.inl (by norm_num)⟩]
      rw [moveAllDescendants]
    rw [h1]
    have hvism : c6C ∈ getVisibleModules [c6P] c6Exp := by
      rw [c6_vis_eval]
      simp
    have hnone : (setPos c6pm (Module.path c6P) ⟨60, 50, 250, 120⟩) (Module.path c6C)
        = none := rfl
    rw [show Module.children c6P = [c6C] from rfl]
    rw [moveList_cons_no_box _ _ _ _ _ _ _ hvism hnone, moveList_nil]
    rfl
  · rw [show c6pm "p/c/g" = some ⟨7, 8, 140, 80⟩ from rfl]
    norm_num [shiftBox]
  · simp

/-- Box map with a stored box for every visible module of the C6 forest. -/
def c6pmW : PosMap := fun q =>
  if q = "p" then some ⟨50, 50, 250, 120⟩
  else if q = "p/c" then some ⟨3, 4, 140, 80⟩
  else if q = "p/c/g" then some ⟨7, 8, 100, 60⟩
  else none

/-- Witness for C6 (amended): dragging the container `p` by `(10, -5)` on the
fully-boxed map translates the visible child `p/c` by exactly `(10, -5)`. -/
theorem updateModulePosition_rigid_drag_witness :
    updateModulePosition [c6P] c6Exp c6P (50 + 10) (50 + (-5)) c6pmW (Module.path c6C)
      = (c6pmW (Module.path c6C)).map (shiftBox 10 (-5)) := by
  have hwf6 : WF [c6P] := by
    refine ⟨?_, ?_, ?_, ?_⟩ <;>
      simp [forestNodes, Module.nodes, nodesList, Module.path, Module.level,
        Module.children, Module.parentPath, c6P, c6C, c6G]
  have hmv : c6P ∈ getVisibleModules [c6P] c6Exp := by
    rw [c6_vis_eval]
    simp
  have hme : Module.path c6P ∈ c6Exp := by
    simp [c6P, Module.path, c6Exp]
  have hbox : ∀ v ∈ getVisibleModules [c6P] c6Exp, (c6pmW (Module.path v)).isSome := by
    rw [c6_vis_eval]
    intro v hv
    simp only [List.mem_cons, List.mem_singleton, List.not_mem_nil] at hv
    rcases hv with rfl | rfl | rfl | h
    · rfl
    · rfl
    · rfl
    · cases h
  have h := updateModulePosition_rigid_drag [c6P] c6Exp hwf6 c6P c6pmW hmv hme hbox
    10 (-5) ⟨50, 50, 250, 120⟩ rfl
  refine h.1 c6C ?_ ?_
  · simp [c6P, Module.children, nodesList_cons, nodesList]
  · rw [c6_vis_eval]
    simp

/-! ## Drag cancellation (claim C9) -/

def c9M : Module := Module.mk "a" "a" "" 0 [] none

/-- Stored positions before the drag: the dragged module sits at (50, 50). -/
def c9pm0 : PosMap := fun q => if q = "a" then some ⟨50, 50, 250, 120⟩ else none

/-- Claim C9, evaluated at the failing input: starting from the pre-drag box
(50, 50), one drag-move update writes (200, 300) into the stored positions
(`updateModuleDrag` calls `updateModulePosition` on every mouse move), and the
subsequent `cancelDrag` — which re-reads the *current* stored position rather
than any saved pre-drag value — leaves the box at (200, 300) instead of
restoring (50, 50).  The code's own comment says "Reset to original position",
and the spec requires the pre-drag value, so this is a defect in the code: the
drag state never saves the pre-drag box. -/
theorem cancelDrag_keeps_dragged_position :
    c9pm0 "a" = some ⟨50, 50, 250, 120⟩ ∧
    updateModulePosition [c9M] ∅ c9M 200 300 c9pm0 "a" = some ⟨200, 300, 250, 120⟩ ∧
    cancelDrag [c9M] ∅ c9M (updateModulePosition [c9M] ∅ c9M 200 300 c9pm0) "a"
      = some ⟨200, 300, 250, 120⟩ ∧
    some (⟨200, 300, 250, 120⟩ : Box) ≠ some (⟨50, 50, 250, 120⟩ : Box) := by
  have h1 : updateModulePosition [c9M] ∅ c9M 200 300 c9pm0
      = setPos c9pm0 (Module.path c9M) ⟨200, 300, 250, 120⟩ := by
    simp only [updateModulePosition,
      show c9pm0 (Module.path c9M) = some ⟨50, 50, 250, 120⟩ from rfl]
    rw [if_neg (by simp)]
  have h2 : updateModulePosition [c9M] ∅ c9M 200 300
      (setPos c9pm0 (Module.path c9M) ⟨200, 300, 250, 120⟩)
      = setPos (setPos c9pm0 (Module.path c9M) ⟨200, 300, 250, 120⟩)
          (Module.path c9M) ⟨200, 300, 250, 120⟩ := by
    simp only [updateModulePosition,
      show (setPos c9pm0 (Module.path c9M) ⟨200, 300, 250, 120⟩) (Module.path c9M)
        = some ⟨200, 300, 250, 120⟩ from rfl]
    rw [if_neg (by simp)]
  refine ⟨rfl, ?_, ?_, by norm_num⟩
  · rw [h1]
    rfl
  · rw [h1]
    have h3 : cancelDrag [c9M] ∅ c9M (setPos c9pm0 (Module.path c9M) ⟨200, 300, 250, 120⟩)
        = updateModulePosition [c9M] ∅ c9M 200 300
            (setPos c9pm0 (Module.path c9M) ⟨200, 300, 250, 120⟩) := by
      simp only [cancelDrag,
        show (setPos c9pm0 (Module.path c9M) ⟨200, 300, 250, 120⟩) (Module.path c9M)
          = some ⟨200, 300, 250, 120⟩ from rfl]
    rw [h3, h2]
    rfl

end PCB
